import Mathlib

/-!
Shallow embedding of `src/lib/music/transposition.ts` (band-brain repository).

JS strings are modelled as Lean `String` (operating on the underlying `List Char`),
JS numbers restricted to the integer arithmetic actually performed (`Int`, with the
JS `%` operator modelled by the truncating remainder `Int.tmod`), JS regular
expression matches by explicit parsing functions on `List Char` that reproduce the
semantics of the anchored patterns used in the source, and JS `Array.indexOf` /
object lookup by list search returning a `-1` sentinel / association list lookup.
-/

/-- Chromatic scale spelled with sharps: source constant `NOTES_SHARP`. -/
def NOTES_SHARP : List String :=
  ["C", "C#", "D", "D#", "E", "F"] ++ ["F#", "G", "G#", "A", "A#", "B"]

/-- Chromatic scale spelled with flats: source constant `NOTES_FLAT`. -/
def NOTES_FLAT : List String :=
  ["C", "Db", "D", "Eb", "E", "F", "Gb", "G", "Ab", "A", "Bb", "B"]

/-- Flat-to-sharp enharmonic map: source constant `ENHARMONIC_TO_SHARP`. -/
def ENHARMONIC_TO_SHARP : List (String × String) :=
  [("Db", "C#"), ("Eb", "D#"), ("Gb", "F#"), ("Ab", "G#"), ("Bb", "A#"),
   ("Cb", "B"), ("Fb", "E")]

/-- Major keys that prefer flat spelling: source constant `FLAT_KEYS`. -/
def FLAT_KEYS : List String := ["F", "Bb", "Eb", "Ab", "Db", "Gb", "Cb"]

/-- Minor keys that prefer flat spelling: source constant `FLAT_MINOR_KEYS`. -/
def FLAT_MINOR_KEYS : List String := ["Dm", "Gm", "Cm", "Fm", "Bbm", "Ebm", "Abm"]

/-- The source union type `NoteNotation = "sharp" | "flat"`. -/
inductive NotationKind where
  | sharp
  | flat
  deriving DecidableEq

/-- Membership in the regex character class `[A-G]`. -/
def isNoteLetter (c : Char) : Bool :=
  c = 'A' || c = 'B' || c = 'C' || c = 'D' || c = 'E' || c = 'F' || c = 'G'

/-- Membership in the regex character class `[#b]`. -/
def isAccidentalChar (c : Char) : Bool :=
  c = '#' || c = 'b'

/-- Match of the anchored pattern `^[A-G][#b]?` against a character list,
returning the matched root and the remaining characters. Both quantifiers of
the pattern are greedy, so a second character in `[#b]` always joins the root. -/
def matchNoteRoot : List Char → Option (List Char × List Char)
  | [] => none
  | c :: rest =>
    if isNoteLetter c then
      match rest with
      | [] => some ([c], [])
      | a :: rest2 =>
        if isAccidentalChar a then some ([c, a], rest2) else some ([c], rest)
    else none

/-- JS `Array.prototype.indexOf` on an array of strings: index of the first
occurrence, `-1` if absent. -/
def jsIndexOf (l : List String) (x : String) : Int :=
  match l with
  | [] => -1
  | y :: rest =>
    if y = x then 0
    else
      let r := jsIndexOf rest x
      if r = -1 then -1 else r + 1

/-- Embedding of `getNoteIndex`: extract the leading `[A-G][#b]?` root, replace it
by its `ENHARMONIC_TO_SHARP` image when present, and look it up in `NOTES_SHARP`
(`-1` when the initial match fails or the lookup misses). -/
def getNoteIndex (note : String) : Int :=
  match matchNoteRoot note.data with
  | none => -1
  | some (root, _) =>
    let normalizedRoot := (ENHARMONIC_TO_SHARP.lookup (String.mk root)).getD (String.mk root)
    jsIndexOf NOTES_SHARP normalizedRoot

/-- The ternary `notation === "flat" ? NOTES_FLAT : NOTES_SHARP` from `transposeNote`. -/
def tableFor (nt : NotationKind) : List String :=
  if nt = NotationKind.flat then NOTES_FLAT else NOTES_SHARP

/-- Embedding of `transposeNote`. JS `%` is the truncating remainder, hence
`Int.tmod`; the source normalizes with `((index + semitones) % 12 + 12) % 12`. -/
def transposeNote (note : String) (semitones : Int) (nt : NotationKind) : String :=
  let index := getNoteIndex note
  if index = -1 then note
  else
    let newIndex := ((index + semitones).tmod 12 + 12).tmod 12
    (tableFor nt).getD newIndex.toNat ""

/-- JS line terminators, which `.` in a regex without the `s` flag never matches. -/
def isLineTerm (c : Char) : Bool :=
  c = '\n' || c = '\r' || c.toNat = 0x2028 || c.toNat = 0x2029

/-- Match of `^([A-G][#b]?)(.*)$` from `transposeChord`: the root match followed by
`(.*)$`, which succeeds exactly when the remainder contains no line terminator
(`.` cannot cross one and `$` only matches at the end of the input). -/
def chordRootMatch (l : List Char) : Option (List Char × List Char) :=
  match matchNoteRoot l with
  | none => none
  | some (root, rest) => if rest.any isLineTerm then none else some (root, rest)

/-- Whether a character list is exactly one token of the pattern `[A-G][#b]?$`. -/
def bassTokenMatch (l : List Char) : Bool :=
  match l with
  | [c] => isNoteLetter c
  | [c, a] => isNoteLetter c && isAccidentalChar a
  | _ => false

/-- Match of `(.*)\/([A-G][#b]?)$` against a (line-terminator-free) remainder:
the greedy `(.*)` makes the match split at the last `/` that is followed by a
complete note token reaching the end; `none` when no such `/` exists. -/
def slashSplit : List Char → Option (List Char × List Char)
  | [] => none
  | c :: rest =>
    match slashSplit rest with
    | some (q, b) => some (c :: q, b)
    | none => if c = '/' && bassTokenMatch rest then some ([], rest) else none

/-- Embedding of `transposeChord`: split off the root, transpose it, and when the
remainder ends in `/` plus a note token transpose that bass note as well, keeping
the quality text in between; unparseable chords are returned unchanged. -/
def transposeChord (chord : String) (semitones : Int) (nt : NotationKind) : String :=
  match chordRootMatch chord.data with
  | none => chord
  | some (root, rest) =>
    let newRoot := transposeNote (String.mk root) semitones nt
    match slashSplit rest with
    | some (quality, bassNote) =>
      let newBass := transposeNote (String.mk bassNote) semitones nt
      newRoot ++ String.mk quality ++ "/" ++ newBass
    | none => newRoot ++ String.mk rest

/-- Membership in the JS regex class `\s` (ECMAScript WhiteSpace and
LineTerminator code points). -/
def isJsWhitespace (c : Char) : Bool :=
  c = '\t' || c = '\n' || c.toNat = 0xb || c.toNat = 0xc || c = '\r' || c = ' ' ||
  c.toNat = 0xa0 || c.toNat = 0x1680 || (0x2000 <= c.toNat && c.toNat <= 0x200a) ||
  c.toNat = 0x2028 || c.toNat = 0x2029 || c.toNat = 0x202f || c.toNat = 0x205f ||
  c.toNat = 0x3000 || c.toNat = 0xfeff

/-- Membership in the regex character class `[\s,]`. -/
def isSepChar (c : Char) : Bool :=
  c = ',' || isJsWhitespace c

/-- JS `String.prototype.split(/[\s,]+/)`: the fields between maximal runs of
separator characters, where a run touching either end of the string contributes
an empty field (so `""` yields `[""]` and `",a"` yields `["", "a"]`). -/
def jsFields : List Char → List (List Char)
  | [] => [[]]
  | c :: rest =>
    let fs := jsFields rest
    if isSepChar c then
      match rest with
      | [] => [] :: fs
      | d :: _ => if isSepChar d then fs else [] :: fs
    else
      match fs with
      | f :: tail => (c :: f) :: tail
      | [] => [[c]]

/-- Embedding of the array overload of `transposeProgression`. -/
def transposeProgressionList (progression : List String) (semitones : Int)
    (nt : NotationKind) : List String :=
  progression.map (fun chord => transposeChord chord semitones nt)

/-- Embedding of the string overload of `transposeProgression`: split on
`/[\s,]+/`, drop empty fields (`filter(Boolean)`), transpose each chord, and
rejoin with `", "` when the input contains a comma and `" "` otherwise. -/
def transposeProgressionStr (progression : String) (semitones : Int)
    (nt : NotationKind) : String :=
  let chords := ((jsFields progression.data).filter (fun f => !f.isEmpty)).map String.mk
  let transposed := chords.map (fun chord => transposeChord chord semitones nt)
  if progression.data.contains ',' then
    String.intercalate ", " transposed
  else
    String.intercalate " " transposed

/-- Embedding of `getInterval`: `0` when either endpoint fails to resolve, else
the always-upward distance `((toIndex - fromIndex) % 12 + 12) % 12`. -/
def getInterval (fromNote toNote : String) : Int :=
  let fromIndex := getNoteIndex fromNote
  let toIndex := getNoteIndex toNote
  if fromIndex = -1 || toIndex = -1 then 0
  else ((toIndex - fromIndex).tmod 12 + 12).tmod 12

/-- Match of the anchored pattern `^[A-G][#b]?m?` from `getPreferredNotation`. -/
def matchKeyRoot : List Char → Option (List Char)
  | [] => none
  | c :: rest =>
    if isNoteLetter c then
      match rest with
      | [] => some [c]
      | a :: rest2 =>
        if isAccidentalChar a then
          match rest2 with
          | 'm' :: _ => some [c, a, 'm']
          | _ => some [c, a]
        else if a = 'm' then some [c, 'm']
        else some [c]
    else none

/-- Embedding of `getPreferredNotation`: flat when the extracted prefix is a
member of either flat-key set or itself contains `b`, sharp otherwise. -/
def getPreferredNotation (key : String) : NotationKind :=
  match matchKeyRoot key.data with
  | none => NotationKind.sharp
  | some root =>
    if FLAT_KEYS.contains (String.mk root) || FLAT_MINOR_KEYS.contains (String.mk root) then
      NotationKind.flat
    else if root.contains 'b' then NotationKind.flat
    else NotationKind.sharp

/-- Embedding of the string overload of `transposeToKey`. -/
def transposeToKeyStr (progression : String) (fromKey toKey : String) : String :=
  transposeProgressionStr progression (getInterval fromKey toKey) (getPreferredNotation toKey)

/-- Embedding of the array overload of `transposeToKey`. -/
def transposeToKeyList (progression : List String) (fromKey toKey : String) : List String :=
  transposeProgressionList progression (getInterval fromKey toKey) (getPreferredNotation toKey)

/-- JS `key.endsWith("m") || key.endsWith("min")` shared by `getRelativeKey`
and `getParallelKey`. -/
def isMinorKey (key : String) : Bool :=
  List.isSuffixOf ['m'] key.data || List.isSuffixOf ['m', 'i', 'n'] key.data

/-- JS `key.replace(/m(in)?$/, "")`: the regex can only match a final `"min"`
(preferred, since its occurrence starts further left) or a final `"m"`. -/
def stripMinorSuffix (key : String) : String :=
  if List.isSuffixOf ['m', 'i', 'n'] key.data then
    String.mk (key.data.take (key.data.length - 3))
  else if List.isSuffixOf ['m'] key.data then
    String.mk (key.data.take (key.data.length - 1))
  else key

/-- Embedding of `getRelativeKey`: minor keys move up 3 semitones and drop the
suffix, major keys move up 9 semitones and gain an `m`. -/
def getRelativeKey (key : String) : String :=
  let root := stripMinorSuffix key
  if isMinorKey key then transposeNote root 3 (getPreferredNotation root)
  else transposeNote root 9 (getPreferredNotation root) ++ "m"

/-- Embedding of `getParallelKey`: toggle the minor suffix on the same root. -/
def getParallelKey (key : String) : String :=
  let root := stripMinorSuffix key
  if isMinorKey key then root else root ++ "m"

/-- Lookup-plus-index computation applied by `getNoteIndex` to a matched root:
normalize through `ENHARMONIC_TO_SHARP`, then index into `NOTES_SHARP`. -/
def rootIndex (root : List Char) : Int :=
  jsIndexOf NOTES_SHARP ((ENHARMONIC_TO_SHARP.lookup (String.mk root)).getD (String.mk root))

/-- Semitone value of a note letter, following the spec's data model
(`0 = C`, whole steps except E-F and B-C). This definition is written from the
spec's words, for comparison with the table-driven source computation. -/
def specLetterSemitone (c : Char) : Int :=
  if c = 'C' then 0
  else if c = 'D' then 2
  else if c = 'E' then 4
  else if c = 'F' then 5
  else if c = 'G' then 7
  else if c = 'A' then 9
  else 11

/-- Pitch class denoted by a root spelling per the spec's data model: the letter
value raised a semitone by `#` and lowered by `b`, modulo 12. Written from the
spec's words, for comparison with the source's lookup tables. -/
def specPitchClass (root : List Char) : Int :=
  match root with
  | [c] => specLetterSemitone c
  | [c, a] => (specLetterSemitone c + (if a = '#' then 1 else -1) + 12) % 12
  | _ => -1

/-- Tokenizer written from the spec's words for `transposeProgression`: split the
string on runs of whitespace/comma characters, dropping empty tokens — i.e. the
maximal chunks of non-separator characters, in order. -/
def tokenizeSpec : List Char → List (List Char)
  | [] => []
  | c :: rest =>
    let ts := tokenizeSpec rest
    if isSepChar c then ts
    else
      match rest with
      | [] => [[c]]
      | d :: _ =>
        if isSepChar d then [c] :: ts
        else
          match ts with
          | t :: ts2 => (c :: t) :: ts2
          | [] => [[c]]

/-- JS `((x % 12) + 12) % 12` (truncating `%`) is the Euclidean residue mod 12. -/
theorem tmod12_norm (a : Int) : ((a.tmod 12) + 12).tmod 12 = a % 12 := by
  rcases a with m | m
  · have h0 : (0 : Int) ≤ Int.ofNat m := Int.ofNat_nonneg m
    rw [Int.tmod_eq_emod h0 (by norm_num)]
    have h1 : (0 : Int) ≤ Int.ofNat m % 12 + 12 := by
      have := Int.emod_nonneg (Int.ofNat m) (by norm_num : (12 : Int) ≠ 0)
      omega
    rw [Int.tmod_eq_emod h1 (by norm_num)]
    omega
  · have hred : (Int.negSucc m).tmod 12 = -(((m + 1) % 12 : Nat) : Int) := by
      simp [Int.tmod]
    rw [hred]
    have hr : (m + 1) % 12 < 12 := Nat.mod_lt _ (by norm_num)
    have h1 : (0 : Int) ≤ -(((m + 1) % 12 : Nat) : Int) + 12 := by omega
    rw [Int.tmod_eq_emod h1 (by norm_num)]
    rw [Int.negSucc_eq]
    omega

/-- `jsIndexOf` returns `-1` or a position inside the list. -/
theorem jsIndexOf_range (l : List String) (x : String) :
    jsIndexOf l x = -1 ∨ (0 ≤ jsIndexOf l x ∧ jsIndexOf l x < l.length) := by
  induction l with
  | nil => left; rfl
  | cons y rest ih =>
    unfold jsIndexOf
    by_cases hy : y = x
    · right
      simp [hy]
    · simp only [hy, if_false]
      rcases ih with h | h
      · left; simp [h]
      · right
        have hne : jsIndexOf rest x ≠ -1 := by omega
        simp only [hne, if_false]
        constructor
        · omega
        · simp only [List.length_cons]
          omega

/-- `getNoteIndex` is `-1` or a chromatic index in `[0, 12)`. -/
theorem getNoteIndex_range (s : String) :
    getNoteIndex s = -1 ∨ (0 ≤ getNoteIndex s ∧ getNoteIndex s < 12) := by
  unfold getNoteIndex
  cases hm : matchNoteRoot s.data with
  | none => left; rfl
  | some pr =>
    obtain ⟨root, rest⟩ := pr
    have := jsIndexOf_range NOTES_SHARP
      ((ENHARMONIC_TO_SHARP.lookup (String.mk root)).getD (String.mk root))
    simpa using this

/-- A matched note root, concatenated with the remainder, restores the input. -/
theorem matchNoteRoot_append {l root rest : List Char}
    (h : matchNoteRoot l = some (root, rest)) : l = root ++ rest := by
  cases l with
  | nil => simp [matchNoteRoot] at h
  | cons c r =>
    by_cases hc : isNoteLetter c = true
    · cases r with
      | nil =>
        simp [matchNoteRoot, hc] at h
        obtain ⟨h1, h2⟩ := h
        subst h1; subst h2; rfl
      | cons a r2 =>
        by_cases ha : isAccidentalChar a = true
        · simp [matchNoteRoot, hc, ha] at h
          obtain ⟨h1, h2⟩ := h
          subst h1; subst h2; rfl
        · simp [matchNoteRoot, hc, ha] at h
          obtain ⟨h1, h2⟩ := h
          subst h1; subst h2; rfl
    · simp [matchNoteRoot, hc] at h

/-- A matched note root is one letter, optionally followed by one accidental. -/
theorem matchNoteRoot_shape {l root rest : List Char}
    (h : matchNoteRoot l = some (root, rest)) :
    (∃ c, isNoteLetter c = true ∧ root = [c]) ∨
    (∃ c a, isNoteLetter c = true ∧ isAccidentalChar a = true ∧ root = [c, a]) := by
  cases l with
  | nil => simp [matchNoteRoot] at h
  | cons c r =>
    by_cases hc : isNoteLetter c = true
    · cases r with
      | nil =>
        simp [matchNoteRoot, hc] at h
        left
        exact ⟨c, hc, h.1.symm⟩
      | cons a r2 =>
        by_cases ha : isAccidentalChar a = true
        · simp [matchNoteRoot, hc, ha] at h
          right
          exact ⟨c, a, hc, ha, h.1.symm⟩
        · simp [matchNoteRoot, hc, ha] at h
          left
          exact ⟨c, hc, h.1.symm⟩
    · simp [matchNoteRoot, hc] at h

/-- Explicit enumeration of the regex class `[A-G]`. -/
theorem noteLetter_cases {c : Char} (h : isNoteLetter c = true) :
    c = 'A' ∨ c = 'B' ∨ c = 'C' ∨ c = 'D' ∨ c = 'E' ∨ c = 'F' ∨ c = 'G' := by
  have h2 := h
  simp [isNoteLetter] at h2
  tauto

/-- Explicit enumeration of the regex class `[#b]`. -/
theorem accidental_cases {a : Char} (h : isAccidentalChar a = true) :
    a = '#' ∨ a = 'b' := by
  simpa [isAccidentalChar] using h

/-- On a successful root match, `getNoteIndex` is the normalized table lookup. -/
theorem getNoteIndex_eq_rootIndex {s : String} {root rest : List Char}
    (h : matchNoteRoot s.data = some (root, rest)) :
    getNoteIndex s = rootIndex root := by
  unfold getNoteIndex rootIndex
  rw [h]

/-- For a bare-letter root, the source lookup agrees with the spec pitch class
and lands in `[0, 11]`. -/
theorem rootIndex_single {c : Char} (hc : isNoteLetter c = true) :
    rootIndex [c] = specPitchClass [c] ∧ 0 ≤ rootIndex [c] ∧ rootIndex [c] ≤ 11 := by
  rcases noteLetter_cases hc with h | h | h | h | h | h | h <;> subst h <;> decide

/-- For a letter-plus-accidental root other than `B#` and `E#`, the source lookup
agrees with the spec pitch class and lands in `[0, 11]`. -/
theorem rootIndex_pair {c a : Char} (hc : isNoteLetter c = true)
    (ha : isAccidentalChar a = true)
    (hB : ¬(c = 'B' ∧ a = '#')) (hE : ¬(c = 'E' ∧ a = '#')) :
    rootIndex [c, a] = specPitchClass [c, a] ∧
      0 ≤ rootIndex [c, a] ∧ rootIndex [c, a] ≤ 11 := by
  rcases noteLetter_cases hc with h | h | h | h | h | h | h <;> subst h <;>
    rcases accidental_cases ha with h2 | h2 <;> subst h2 <;>
    first
    | decide
    | (exfalso; apply hB; exact And.intro rfl rfl)
    | (exfalso; apply hE; exact And.intro rfl rfl)

/-- The two sharp spellings missing from the normalization table hit the sentinel. -/
theorem rootIndex_uncovered : rootIndex ['B', '#'] = -1 ∧ rootIndex ['E', '#'] = -1 := by
  decide

/-- Reading back any entry of either canonical table returns its own index. -/
theorem table_getNoteIndex (nt : NotationKind) :
    ∀ j : Nat, j < 12 → getNoteIndex ((tableFor nt).getD j "") = (j : Int) := by
  cases nt <;> decide

/-- Both canonical tables have 12 entries. -/
theorem table_length (nt : NotationKind) : (tableFor nt).length = 12 := by
  cases nt <;> decide

/-- `transposeNote` echoes its input when the note does not resolve. -/
theorem transposeNote_invalid {n : String} (h : getNoteIndex n = -1)
    (s : Int) (nt : NotationKind) : transposeNote n s nt = n := by
  simp [transposeNote, h]

/-- On a resolving note, `transposeNote` reads the requested table at the
Euclidean residue of `index + semitones` mod 12. -/
theorem transposeNote_valid {n : String} (h0 : 0 ≤ getNoteIndex n)
    (s : Int) (nt : NotationKind) :
    transposeNote n s nt = (tableFor nt).getD ((getNoteIndex n + s) % 12).toNat "" := by
  have hne : ¬(getNoteIndex n = -1) := by omega
  simp only [transposeNote, hne, if_false]
  rw [tmod12_norm]

/-- A successful slash split decomposes the remainder around the final `/`. -/
theorem slashSplit_append {l q b : List Char} (h : slashSplit l = some (q, b)) :
    l = q ++ '/' :: b := by
  induction l generalizing q b with
  | nil => simp [slashSplit] at h
  | cons c rest ih =>
    unfold slashSplit at h
    cases hs : slashSplit rest with
    | some qb =>
      obtain ⟨q0, b0⟩ := qb
      rw [hs] at h
      simp only [Option.some.injEq, Prod.mk.injEq] at h
      obtain ⟨h1, h2⟩ := h
      subst h1; subst h2
      have := ih hs
      rw [this]
      rfl
    | none =>
      rw [hs] at h
      by_cases hc : (c = '/' && bassTokenMatch rest) = true
      · simp only [hc, if_true, Option.some.injEq, Prod.mk.injEq] at h
        obtain ⟨h1, h2⟩ := h
        subst h1; subst h2
        have hcc : c = '/' := by
          have := hc
          simp at this
          exact this.1
        subst hcc
        rfl
      · simp [hc] at h

/-- A successful chord-root match is a note-root match whose remainder is free
of line terminators. -/
theorem chordRootMatch_eq_some {l root rest : List Char}
    (h : chordRootMatch l = some (root, rest)) :
    matchNoteRoot l = some (root, rest) ∧ rest.any isLineTerm = false := by
  unfold chordRootMatch at h
  cases hm : matchNoteRoot l with
  | none => rw [hm] at h; simp at h
  | some pr =>
    obtain ⟨r0, rs0⟩ := pr
    rw [hm] at h
    by_cases hl : rs0.any isLineTerm = true
    · simp [hl] at h
    · simp only [Bool.not_eq_true] at hl
      simp only [hl, Bool.false_eq_true, if_false, Option.some.injEq, Prod.mk.injEq] at h
      obtain ⟨h1, h2⟩ := h
      subst h1; subst h2
      exact ⟨rfl, hl⟩

/-- `transposeChord` echoes its input when the chord pattern does not match. -/
theorem transposeChord_of_none {c : String} (h : chordRootMatch c.data = none)
    (s : Int) (nt : NotationKind) : transposeChord c s nt = c := by
  unfold transposeChord
  rw [h]

/-- `transposeChord` on a slash chord: transposed root, untouched quality,
transposed bass. -/
theorem transposeChord_slash {c : String} {root rest quality bass : List Char}
    (h : chordRootMatch c.data = some (root, rest))
    (hs : slashSplit rest = some (quality, bass)) (s : Int) (nt : NotationKind) :
    transposeChord c s nt =
      transposeNote (String.mk root) s nt ++ String.mk quality ++ "/" ++
        transposeNote (String.mk bass) s nt := by
  unfold transposeChord
  rw [h]
  dsimp only
  rw [hs]

/-- `transposeChord` without a bass token: transposed root, untouched remainder. -/
theorem transposeChord_noslash {c : String} {root rest : List Char}
    (h : chordRootMatch c.data = some (root, rest)) (hs : slashSplit rest = none)
    (s : Int) (nt : NotationKind) :
    transposeChord c s nt = transposeNote (String.mk root) s nt ++ String.mk rest := by
  unfold transposeChord
  rw [h]
  dsimp only
  rw [hs]

/-- `split` never produces an empty field list. -/
theorem jsFields_ne_nil (l : List Char) : jsFields l ≠ [] := by
  induction l with
  | nil => simp [jsFields]
  | cons c rest ih =>
    unfold jsFields
    by_cases hc : isSepChar c = true
    · simp only [hc, if_true]
      cases rest with
      | nil => simp
      | cons d r2 =>
        by_cases hd : isSepChar d = true
        · simpa [hd] using ih
        · simp [hd]
    · simp only [hc]
      cases hfs : jsFields rest with
      | nil => simp
      | cons f tail => simp

/-- A string starting with a separator splits into an empty first field. -/
theorem jsFields_sep_head :
    ∀ (r : List Char) (d : Char), isSepChar d = true →
      ∃ t, jsFields (d :: r) = [] :: t := by
  intro r
  induction r with
  | nil =>
    intro d hd
    refine ⟨[[]], ?_⟩
    unfold jsFields
    simp [hd, jsFields]
  | cons e r2 ih =>
    intro d hd
    by_cases he : isSepChar e = true
    · obtain ⟨t, ht⟩ := ih e he
      refine ⟨t, ?_⟩
      unfold jsFields
      simp only [hd, if_true, he]
      exact ht
    · refine ⟨jsFields (e :: r2), ?_⟩
      unfold jsFields
      simp only [hd, if_true, he, Bool.false_eq_true, if_false]
      conv_lhs => unfold jsFields
      simp [he]

/-- A string starting with a non-separator splits into a first field that
starts with that character. -/
theorem jsFields_nonsep_head (r : List Char) (d : Char) (hd : isSepChar d = false) :
    ∃ f t, jsFields (d :: r) = (d :: f) :: t := by
  unfold jsFields
  simp only [hd, Bool.false_eq_true, if_false]
  cases hfs : jsFields r with
  | nil => exact ⟨[], [], rfl⟩
  | cons f tail => exact ⟨f, tail, rfl⟩

/-- The source pipeline `split(/[\s,]+/).filter(Boolean)` computes exactly the
spec's tokenization: maximal runs of non-separator characters. -/
theorem jsFields_filter_eq_tokenizeSpec (l : List Char) :
    (jsFields l).filter (fun f => !f.isEmpty) = tokenizeSpec l := by
  induction l with
  | nil => rfl
  | cons c rest ih =>
    by_cases hc : isSepChar c = true
    · cases rest with
      | nil => simp [jsFields, tokenizeSpec, hc]
      | cons d r2 =>
        by_cases hd : isSepChar d = true
        · unfold jsFields tokenizeSpec
          simp only [hc, hd, if_true]
          exact ih
        · unfold jsFields tokenizeSpec
          simp only [hc, hd, if_true, Bool.false_eq_true, if_false]
          simpa using ih
    · cases rest with
      | nil => simp [jsFields, tokenizeSpec, hc]
      | cons d r2 =>
        by_cases hd : isSepChar d = true
        · obtain ⟨t, ht⟩ := jsFields_sep_head r2 d hd
          rw [ht] at ih
          simp only [List.filter_cons, List.isEmpty_nil, Bool.not_true,
            Bool.false_eq_true, if_false] at ih
          unfold jsFields tokenizeSpec
          simp only [hc, Bool.false_eq_true, if_false, hd, if_true]
          rw [ht]
          simp only [List.filter_cons]
          simpa using ih
        · have hd0 : isSepChar d = false := by simpa using hd
          obtain ⟨f, t, hft⟩ := jsFields_nonsep_head r2 d hd0
          rw [hft] at ih
          unfold jsFields tokenizeSpec
          simp only [hc, Bool.false_eq_true, if_false, hd]
          rw [hft]
          rw [← ih]
          simp [List.filter_cons]

/-- A root match whose remainder holds a line terminator fails the chord pattern. -/
theorem chordRootMatch_none_of_lt {l root rest : List Char}
    (h : matchNoteRoot l = some (root, rest)) (hl : rest.any isLineTerm = true) :
    chordRootMatch l = none := by
  unfold chordRootMatch
  rw [h]
  simp [hl]

/-- A root match with a terminator-free remainder passes the chord pattern. -/
theorem chordRootMatch_some_of {l root rest : List Char}
    (h : matchNoteRoot l = some (root, rest)) (hl : rest.any isLineTerm = false) :
    chordRootMatch l = some (root, rest) := by
  unfold chordRootMatch
  rw [h]
  simp [hl]

/-- `getInterval` is `0` as soon as either endpoint fails to resolve. -/
theorem getInterval_invalid {f t : String}
    (h : getNoteIndex f = -1 ∨ getNoteIndex t = -1) : getInterval f t = 0 := by
  unfold getInterval
  rcases h with h | h <;> simp [h]

/-- On resolving endpoints, `getInterval` is the Euclidean residue of the
index difference. -/
theorem getInterval_valid {f t : String}
    (hf : getNoteIndex f ≠ -1) (ht : getNoteIndex t ≠ -1) :
    getInterval f t = (getNoteIndex t - getNoteIndex f) % 12 := by
  unfold getInterval
  simp only [hf, ht]
  rw [if_neg (by simp)]
  rw [tmod12_norm]

/-- `getInterval` always lands in `[0, 12)`; the `-1` sentinel never escapes. -/
theorem getInterval_range (f t : String) :
    0 ≤ getInterval f t ∧ getInterval f t < 12 := by
  by_cases hf : getNoteIndex f = -1
  · rw [getInterval_invalid (Or.inl hf)]; omega
  · by_cases ht : getNoteIndex t = -1
    · rw [getInterval_invalid (Or.inr ht)]; omega
    · rw [getInterval_valid hf ht]
      constructor
      · exact Int.emod_nonneg _ (by norm_num)
      · exact Int.emod_lt_of_pos _ (by norm_num)

/-- Appending the minor marker `m` to a canonical table entry does not change
the pitch class it resolves to. -/
theorem tableM_getNoteIndex (nt : NotationKind) :
    ∀ j : Nat, j < 12 → getNoteIndex ((tableFor nt).getD j "" ++ "m") = (j : Int) := by
  cases nt <;> decide

/-- C1 (counterexample): the spellings `B#` and `E#` match the note grammar
`[A-G][#b]?` yet `getNoteIndex` returns the `-1` sentinel for them, because
`ENHARMONIC_TO_SHARP` maps only flat roots, contradicting the claim that every
grammar-matching spelling resolves to a pitch class in `[0, 11]` and that `-1`
is reserved for out-of-grammar strings. -/
theorem C1_counterexample :
    matchNoteRoot "B#".data = some (['B', '#'], []) ∧
    getNoteIndex "B#" = -1 ∧ getNoteIndex "E#" = -1 := by
  decide

/-- C1 (amended): for every input whose leading characters match `[A-G][#b]?`,
`getNoteIndex` first normalizes the root through the flat-to-sharp table and
indexes the sharp table; for every matched root other than `B#` and `E#` the
result is the spelling's pitch class, an integer in `[0, 11]`; it returns `-1`
for out-of-grammar strings and for the uncovered roots `B#` and `E#`. -/
theorem C1_note_index (s : String) :
    (∀ root rest, matchNoteRoot s.data = some (root, rest) →
      getNoteIndex s = rootIndex root) ∧
    (∀ root rest, matchNoteRoot s.data = some (root, rest) →
      root ≠ ['B', '#'] → root ≠ ['E', '#'] →
      getNoteIndex s = specPitchClass root ∧
        0 ≤ getNoteIndex s ∧ getNoteIndex s ≤ 11) ∧
    (matchNoteRoot s.data = none → getNoteIndex s = -1) ∧
    (∀ rest, matchNoteRoot s.data = some (['B', '#'], rest) → getNoteIndex s = -1) ∧
    (∀ rest, matchNoteRoot s.data = some (['E', '#'], rest) → getNoteIndex s = -1) := by
  refine ⟨?_, ?_, ?_, ?_, ?_⟩
  · intro root rest h
    exact getNoteIndex_eq_rootIndex h
  · intro root rest h hB hE
    rw [getNoteIndex_eq_rootIndex h]
    rcases matchNoteRoot_shape h with ⟨c, hc, hr⟩ | ⟨c, a, hc, ha, hr⟩
    · subst hr
      exact rootIndex_single hc
    · subst hr
      refine rootIndex_pair hc ha ?_ ?_
      · rintro ⟨rfl, rfl⟩
        exact hB rfl
      · rintro ⟨rfl, rfl⟩
        exact hE rfl
  · intro h
    unfold getNoteIndex
    rw [h]
  · intro rest h
    rw [getNoteIndex_eq_rootIndex h]
    exact rootIndex_uncovered.1
  · intro rest h
    rw [getNoteIndex_eq_rootIndex h]
    exact rootIndex_uncovered.2

/-- C1 (witness): instantiation at the flat spelling `Gb`. -/
theorem C1_note_index_witness :
    getNoteIndex "Gb" = specPitchClass ['G', 'b'] ∧
    0 ≤ getNoteIndex "Gb" ∧ getNoteIndex "Gb" ≤ 11 :=
  (C1_note_index "Gb").2.1 ['G', 'b'] [] (by decide) (by decide) (by decide)

/-- C2: for every chord whose leading characters match `[A-G][#b]?`, any
semitone count and either spelling table, `transposeChord` keeps the quality
text (between the root and any trailing `/bass` token) byte-for-byte unchanged;
only the root slot and, for slash chords, the bass slot differ, and
`"Cmaj7"` transposes to its new root followed by the untouched `"maj7"`. -/
theorem C2_quality_preserved (chord : String) (s : Int) (nt : NotationKind)
    (root rest : List Char) (h : matchNoteRoot chord.data = some (root, rest)) :
    (∀ quality bass, slashSplit rest = some (quality, bass) →
      ∃ r b, (transposeChord chord s nt).data = r ++ quality ++ '/' :: b) ∧
    (slashSplit rest = none → ∃ r, (transposeChord chord s nt).data = r ++ rest) ∧
    transposeChord "Cmaj7" s nt = transposeNote "C" s nt ++ "maj7" := by
  refine ⟨?_, ?_, ?_⟩
  · intro quality bass hs
    cases hlt : rest.any isLineTerm with
    | true =>
      rw [transposeChord_of_none (chordRootMatch_none_of_lt h hlt) s nt]
      refine ⟨root, bass, ?_⟩
      rw [matchNoteRoot_append h, slashSplit_append hs]
      simp [List.append_assoc]
    | false =>
      rw [transposeChord_slash (chordRootMatch_some_of h hlt) hs s nt]
      refine ⟨(transposeNote (String.mk root) s nt).data,
        (transposeNote (String.mk bass) s nt).data, ?_⟩
      simp only [String.data_append]
      simp [List.append_assoc]
  · intro hs
    cases hlt : rest.any isLineTerm with
    | true =>
      rw [transposeChord_of_none (chordRootMatch_none_of_lt h hlt) s nt]
      exact ⟨root, matchNoteRoot_append h⟩
    | false =>
      rw [transposeChord_noslash (chordRootMatch_some_of h hlt) hs s nt]
      exact ⟨(transposeNote (String.mk root) s nt).data, by simp [String.data_append]⟩
  · have h1 : chordRootMatch ("Cmaj7" : String).data = some (['C'], ['m', 'a', 'j', '7']) := by
      decide
    have h2 : slashSplit ['m', 'a', 'j', '7'] = none := by decide
    rw [transposeChord_noslash h1 h2 s nt]

/-- C2 (witness): instantiation at the slash chord `Am7/G` transposed by 2. -/
theorem C2_quality_preserved_witness :
    ∃ r b, (transposeChord "Am7/G" 2 NotationKind.sharp).data =
      r ++ ['m', '7'] ++ '/' :: b :=
  (C2_quality_preserved "Am7/G" 2 NotationKind.sharp ['A'] ['m', '7', '/', 'G']
    (by decide)).1 ['m', '7'] ['G'] (by decide)

/-- C3 (counterexample): `transposeProgression` does not return unparseable
input text unchanged — it re-splits and re-joins, collapsing the separator run,
so the double-spaced `"??  ??"` comes back single-spaced. -/
theorem C3_counterexample :
    transposeProgressionStr "??  ??" 5 NotationKind.sharp = "?? ??" ∧
    ("?? ??" : String) ≠ "??  ??" := by
  decide

/-- C3 (amended): no transposition function can fail: `transposeNote` and
`transposeChord` return unparseable input unchanged (in particular
`transposeChord "??" 5 "sharp" = "??"`), `getInterval` returns `0` when either
argument fails to resolve and always lands in `[0, 12)` (the internal `-1`
sentinel is never surfaced), and `transposeProgression` re-emits every
unparseable token unchanged, though joined with normalized separators. -/
theorem C3_graceful_degradation :
    (∀ (n : String) (s : Int) (nt : NotationKind),
      getNoteIndex n = -1 → transposeNote n s nt = n) ∧
    (∀ (c : String) (s : Int) (nt : NotationKind),
      chordRootMatch c.data = none → transposeChord c s nt = c) ∧
    (∀ (s : Int) (nt : NotationKind), transposeChord "??" s nt = "??") ∧
    (∀ f t : String, getNoteIndex f = -1 ∨ getNoteIndex t = -1 → getInterval f t = 0) ∧
    (∀ f t : String, 0 ≤ getInterval f t ∧ getInterval f t < 12) ∧
    (∀ (p : String) (s : Int) (nt : NotationKind),
      (∀ tok ∈ (jsFields p.data).filter (fun f => !f.isEmpty), chordRootMatch tok = none) →
      transposeProgressionStr p s nt =
        String.intercalate (if p.data.contains ',' then ", " else " ")
          (((jsFields p.data).filter (fun f => !f.isEmpty)).map String.mk)) := by
  refine ⟨?_, ?_, ?_, ?_, ?_, ?_⟩
  · intro n s nt h
    exact transposeNote_invalid h s nt
  · intro c s nt h
    exact transposeChord_of_none h s nt
  · intro s nt
    exact transposeChord_of_none (by decide) s nt
  · intro f t h
    exact getInterval_invalid h
  · intro f t
    exact getInterval_range f t
  · intro p s nt htok
    unfold transposeProgressionStr
    have hmap :
        (((jsFields p.data).filter (fun f => !f.isEmpty)).map String.mk).map
            (fun chord => transposeChord chord s nt) =
          ((jsFields p.data).filter (fun f => !f.isEmpty)).map String.mk := by
      rw [List.map_map]
      apply List.map_congr_left
      intro tok htk
      exact transposeChord_of_none (htok tok htk) s nt
    dsimp only
    rw [hmap]
    split_ifs <;> rfl

/-- C3 (witness): concrete instantiations of every guarded part. -/
theorem C3_graceful_degradation_witness :
    transposeNote "?" 3 NotationKind.sharp = "?" ∧
    transposeChord "x9" 4 NotationKind.flat = "x9" ∧
    transposeChord "??" 5 NotationKind.sharp = "??" ∧
    getInterval "?" "C" = 0 ∧
    transposeProgressionStr "?? !!" 5 NotationKind.sharp =
      String.intercalate (if ("?? !!" : String).data.contains ',' then ", " else " ")
        (((jsFields ("?? !!" : String).data).filter (fun f => !f.isEmpty)).map String.mk) :=
  ⟨C3_graceful_degradation.1 "?" 3 NotationKind.sharp (by decide),
   C3_graceful_degradation.2.1 "x9" 4 NotationKind.flat (by decide),
   C3_graceful_degradation.2.2.1 5 NotationKind.sharp,
   C3_graceful_degradation.2.2.2.1 "?" "C" (Or.inl (by decide)),
   C3_graceful_degradation.2.2.2.2.2 "?? !!" 5 NotationKind.sharp (by decide)⟩

/-- C4 (counterexample): the enharmonic pair `C#` and `Db` are distinct note
texts with the same pitch class, so both directional intervals are `0` and
their sum is `0`, not `12`. -/
theorem C4_counterexample :
    ("C#" : String) ≠ "Db" ∧ getInterval "C#" "Db" + getInterval "Db" "C#" = 0 := by
  decide

/-- C4 (amended): `getInterval x x = 0` for every note text; for two note texts
that both resolve and have distinct pitch classes the two directional intervals
sum to `12`; and the sum collapses to `0 + 0` exactly when the two texts share
a pitch class or one of them fails to resolve (not only when `x = y`). -/
theorem C4_interval_sums :
    (∀ x : String, getInterval x x = 0) ∧
    (∀ x y : String, getNoteIndex x ≠ -1 → getNoteIndex y ≠ -1 →
      getNoteIndex x ≠ getNoteIndex y →
      getInterval x y + getInterval y x = 12) ∧
    (∀ x y : String, getInterval x y + getInterval y x = 0 ↔
      (getNoteIndex x = getNoteIndex y ∨ getNoteIndex x = -1 ∨ getNoteIndex y = -1)) := by
  refine ⟨?_, ?_, ?_⟩
  · intro x
    by_cases hx : getNoteIndex x = -1
    · exact getInterval_invalid (Or.inl hx)
    · rw [getInterval_valid hx hx]
      omega
  · intro x y hx hy hne
    obtain hxr | hxr := getNoteIndex_range x
    · exact absurd hxr hx
    obtain hyr | hyr := getNoteIndex_range y
    · exact absurd hyr hy
    rw [getInterval_valid hx hy, getInterval_valid hy hx]
    omega
  · intro x y
    by_cases hx : getNoteIndex x = -1
    · rw [getInterval_invalid (Or.inl hx), getInterval_invalid (Or.inr hx)]
      simp [hx]
    · by_cases hy : getNoteIndex y = -1
      · rw [getInterval_invalid (Or.inr hy), getInterval_invalid (Or.inl hy)]
        simp [hy]
      · obtain hxr | hxr := getNoteIndex_range x
        · exact absurd hxr hx
        obtain hyr | hyr := getNoteIndex_range y
        · exact absurd hyr hy
        rw [getInterval_valid hx hy, getInterval_valid hy hx]
        constructor
        · intro hsum
          left
          omega
        · rintro (heq | h1 | h1)
          · rw [heq]
            omega
          · exact absurd h1 hx
          · exact absurd h1 hy

/-- C4 (witness): concrete instantiations of each part. -/
theorem C4_interval_sums_witness :
    getInterval "C" "C" = 0 ∧
    getInterval "C" "D" + getInterval "D" "C" = 12 ∧
    (getInterval "C#" "Db" + getInterval "Db" "C#" = 0 ↔
      (getNoteIndex "C#" = getNoteIndex "Db" ∨ getNoteIndex "C#" = -1 ∨
        getNoteIndex "Db" = -1)) :=
  ⟨C4_interval_sums.1 "C",
   C4_interval_sums.2.1 "C" "D" (by decide) (by decide) (by decide),
   C4_interval_sums.2.2 "C#" "Db"⟩

/-- C5 (counterexample): `B#` matches the note grammar but does not resolve, so
the round trip returns `"B#"` unchanged, which is not an entry of the canonical
sharp table and hence not the canonical sharp spelling of any pitch class. -/
theorem C5_counterexample :
    matchNoteRoot "B#".data = some (['B', '#'], []) ∧
    transposeNote (transposeNote "B#" 1 NotationKind.sharp) (-1) NotationKind.sharp = "B#" ∧
    NOTES_SHARP.contains "B#" = false := by
  decide

/-- C5 (amended): for every note text that resolves to a pitch class (every
grammar-matching spelling except `B#` and `E#`) and every integer `s`,
transposing by `s` and back by `-s` in sharp spelling yields the canonical
sharp-table entry of the original pitch class. -/
theorem C5_round_trip (n : String) (s : Int) (h : getNoteIndex n ≠ -1) :
    transposeNote (transposeNote n s NotationKind.sharp) (-s) NotationKind.sharp =
      NOTES_SHARP.getD (getNoteIndex n).toNat "" := by
  obtain hr | hr := getNoteIndex_range n
  · exact absurd hr h
  obtain ⟨h0, h12⟩ := hr
  rw [transposeNote_valid h0 s NotationKind.sharp]
  have hm0 : 0 ≤ (getNoteIndex n + s) % 12 := Int.emod_nonneg _ (by norm_num)
  have hm12 : (getNoteIndex n + s) % 12 < 12 := Int.emod_lt_of_pos _ (by norm_num)
  have htab := table_getNoteIndex NotationKind.sharp ((getNoteIndex n + s) % 12).toNat
    (by omega)
  have h0b : 0 ≤ getNoteIndex ((tableFor NotationKind.sharp).getD
      ((getNoteIndex n + s) % 12).toNat "") := by
    rw [htab]
    omega
  rw [transposeNote_valid h0b (-s) NotationKind.sharp, htab]
  have hcast : ((((getNoteIndex n + s) % 12).toNat : Int) + -s) % 12 = getNoteIndex n := by
    omega
  rw [hcast]
  simp [tableFor]

/-- C5 (witness): instantiation at `Bb` transposed up 7 and back. -/
theorem C5_round_trip_witness :
    getNoteIndex "Bb" ≠ -1 ∧
    transposeNote (transposeNote "Bb" 7 NotationKind.sharp) (-7) NotationKind.sharp =
      NOTES_SHARP.getD (getNoteIndex "Bb").toNat "" :=
  ⟨by decide, C5_round_trip "Bb" 7 (by decide)⟩

/-- C6 (counterexample): `E#` matches the note grammar but fails to resolve, so
transposing it by a full octave returns `"E#"` itself rather than an entry of
the requested (flat) table. -/
theorem C6_counterexample :
    matchNoteRoot "E#".data = some (['E', '#'], []) ∧
    transposeNote "E#" (12 * 1) NotationKind.flat = "E#" ∧
    NOTES_FLAT.contains "E#" = false := by
  decide

/-- C6 (amended): for every note text that resolves (every grammar-matching
spelling except `B#` and `E#`), every integer `k` and either table,
transposing by `12 * k` returns the requested table's entry at the original
pitch class — notation conversion happens even at zero net transposition —
and the pitch class is unchanged. -/
theorem C6_octave_multiples (n : String) (k : Int) (nt : NotationKind)
    (h : getNoteIndex n ≠ -1) :
    transposeNote n (12 * k) nt = (tableFor nt).getD (getNoteIndex n).toNat "" ∧
    getNoteIndex (transposeNote n (12 * k) nt) = getNoteIndex n := by
  obtain hr | hr := getNoteIndex_range n
  · exact absurd hr h
  obtain ⟨h0, h12⟩ := hr
  have hmod : (getNoteIndex n + 12 * k) % 12 = getNoteIndex n := by
    omega
  constructor
  · rw [transposeNote_valid h0 (12 * k) nt, hmod]
  · rw [transposeNote_valid h0 (12 * k) nt, hmod]
    have := table_getNoteIndex nt (getNoteIndex n).toNat (by omega)
    rw [this]
    omega

/-- C6 (witness): the flat spelling `Db` re-rendered in the sharp table at a
transposition of three octaves. -/
theorem C6_octave_multiples_witness :
    getNoteIndex "Db" ≠ -1 ∧
    (transposeNote "Db" (12 * 3) NotationKind.sharp =
      (tableFor NotationKind.sharp).getD (getNoteIndex "Db").toNat "" ∧
     getNoteIndex (transposeNote "Db" (12 * 3) NotationKind.sharp) = getNoteIndex "Db") :=
  ⟨by decide, C6_octave_multiples "Db" 3 NotationKind.sharp (by decide)⟩

/-- C7: `transposeProgression` preserves the caller's representation — an array
maps element-wise through `transposeChord`; a string is split on runs of
whitespace/comma characters with empty tokens dropped, each token transposed,
and the result joined with `", "` when the original contained a comma and with
a single space otherwise. -/
theorem C7_progression_shape :
    (∀ (p : List String) (s : Int) (nt : NotationKind),
      transposeProgressionList p s nt = p.map (fun c => transposeChord c s nt)) ∧
    (∀ (p : String) (s : Int) (nt : NotationKind),
      transposeProgressionStr p s nt =
        String.intercalate (if p.data.contains ',' then ", " else " ")
          ((tokenizeSpec p.data).map (fun t => transposeChord (String.mk t) s nt))) := by
  constructor
  · intro p s nt
    rfl
  · intro p s nt
    unfold transposeProgressionStr
    dsimp only
    rw [List.map_map, jsFields_filter_eq_tokenizeSpec]
    split_ifs <;> rfl

/-- C8: `getPreferredNotation` answers `flat` exactly when the extracted
`[A-G][#b]?m?` prefix is a member of the fixed flat major-key set or flat
minor-key set, or textually contains `b`; in every other case — including keys
with no such prefix — it answers `sharp`; in particular `Bbm ↦ flat` and
`E ↦ sharp`. -/
theorem C8_preferred_notation :
    (∀ key : String,
      getPreferredNotation key = NotationKind.flat ↔
        ∃ root, matchKeyRoot key.data = some root ∧
          (FLAT_KEYS.contains (String.mk root) = true ∨
           FLAT_MINOR_KEYS.contains (String.mk root) = true ∨
           root.contains 'b' = true)) ∧
    getPreferredNotation "Bbm" = NotationKind.flat ∧
    getPreferredNotation "E" = NotationKind.sharp := by
  refine ⟨?_, by decide, by decide⟩
  intro key
  unfold getPreferredNotation
  cases hm : matchKeyRoot key.data with
  | none =>
    simp
  | some root =>
    by_cases h1 : (FLAT_KEYS.contains (String.mk root) ||
        FLAT_MINOR_KEYS.contains (String.mk root)) = true
    · simp only [h1, if_true]
      simp only [Bool.or_eq_true] at h1
      constructor
      · intro _
        exact ⟨root, rfl, by tauto⟩
      · intro _
        trivial
    · simp only [h1]
      simp only [Bool.or_eq_true] at h1
      push_neg at h1
      by_cases h2 : root.contains 'b' = true
      · simp only [h2, if_true]
        constructor
        · intro _
          exact ⟨root, rfl, Or.inr (Or.inr h2)⟩
        · intro _
          trivial
      · simp only [h2]
        constructor
        · intro hcon
          cases hcon
        · rintro ⟨root2, hr2, hcase⟩
          injection hr2 with hr2
          subst hr2
          rcases hcase with hh | hh | hh
          · exact absurd hh (by simpa using h1.1)
          · exact absurd hh (by simpa using h1.2)
          · exact absurd hh h2

/-- C9: keys ending in `m`/`min` move up 3 semitones and lose the suffix,
other keys move up 9 semitones and gain an `m` (both 3 and 9 realized on the
pitch class whenever the stripped root resolves), `getParallelKey` toggles the
suffix with the root text untouched, and concretely `Am ↦ C`, `C ↦ Am`,
`C ↦ Cm`. -/
theorem C9_relative_parallel :
    (∀ key : String, isMinorKey key = true →
      getRelativeKey key = transposeNote (stripMinorSuffix key) 3
        (getPreferredNotation (stripMinorSuffix key))) ∧
    (∀ key : String, isMinorKey key = false →
      getRelativeKey key = transposeNote (stripMinorSuffix key) 9
        (getPreferredNotation (stripMinorSuffix key)) ++ "m") ∧
    (∀ key : String, getParallelKey key =
      if isMinorKey key then stripMinorSuffix key else stripMinorSuffix key ++ "m") ∧
    (∀ key : String, isMinorKey key = true → getNoteIndex (stripMinorSuffix key) ≠ -1 →
      getNoteIndex (getRelativeKey key) =
        (getNoteIndex (stripMinorSuffix key) + 3) % 12) ∧
    (∀ key : String, isMinorKey key = false → getNoteIndex (stripMinorSuffix key) ≠ -1 →
      getNoteIndex (getRelativeKey key) =
        (getNoteIndex (stripMinorSuffix key) + 9) % 12) ∧
    getRelativeKey "Am" = "C" ∧ getRelativeKey "C" = "Am" ∧ getParallelKey "C" = "Cm" := by
  have hminor : ∀ key : String, isMinorKey key = true →
      getRelativeKey key = transposeNote (stripMinorSuffix key) 3
        (getPreferredNotation (stripMinorSuffix key)) := by
    intro key hk
    unfold getRelativeKey
    simp [hk]
  have hmajor : ∀ key : String, isMinorKey key = false →
      getRelativeKey key = transposeNote (stripMinorSuffix key) 9
        (getPreferredNotation (stripMinorSuffix key)) ++ "m" := by
    intro key hk
    unfold getRelativeKey
    simp [hk]
  refine ⟨hminor, hmajor, ?_, ?_, ?_, by decide, by decide, by decide⟩
  · intro key
    unfold getParallelKey
    rfl
  · intro key hk hroot
    obtain hr | hr := getNoteIndex_range (stripMinorSuffix key)
    · exact absurd hr hroot
    obtain ⟨h0, h12⟩ := hr
    rw [hminor key hk]
    rw [transposeNote_valid h0 3 (getPreferredNotation (stripMinorSuffix key))]
    have hm0 : 0 ≤ (getNoteIndex (stripMinorSuffix key) + 3) % 12 :=
      Int.emod_nonneg _ (by norm_num)
    have hm12 : (getNoteIndex (stripMinorSuffix key) + 3) % 12 < 12 :=
      Int.emod_lt_of_pos _ (by norm_num)
    have := table_getNoteIndex (getPreferredNotation (stripMinorSuffix key))
      ((getNoteIndex (stripMinorSuffix key) + 3) % 12).toNat (by omega)
    rw [this]
    omega
  · intro key hk hroot
    obtain hr | hr := getNoteIndex_range (stripMinorSuffix key)
    · exact absurd hr hroot
    obtain ⟨h0, h12⟩ := hr
    rw [hmajor key hk]
    rw [transposeNote_valid h0 9 (getPreferredNotation (stripMinorSuffix key))]
    have hm0 : 0 ≤ (getNoteIndex (stripMinorSuffix key) + 9) % 12 :=
      Int.emod_nonneg _ (by norm_num)
    have hm12 : (getNoteIndex (stripMinorSuffix key) + 9) % 12 < 12 :=
      Int.emod_lt_of_pos _ (by norm_num)
    have := tableM_getNoteIndex (getPreferredNotation (stripMinorSuffix key))
      ((getNoteIndex (stripMinorSuffix key) + 9) % 12).toNat (by omega)
    rw [this]
    omega

/-- C9 (witness): instantiations at `Am` (minor) and `C` (major). -/
theorem C9_relative_parallel_witness :
    getRelativeKey "Am" = transposeNote (stripMinorSuffix "Am") 3
      (getPreferredNotation (stripMinorSuffix "Am")) ∧
    getNoteIndex (getRelativeKey "C") = (getNoteIndex (stripMinorSuffix "C") + 9) % 12 :=
  ⟨C9_relative_parallel.1 "Am" (by decide),
   C9_relative_parallel.2.2.2.2.1 "C" (by decide) (by decide)⟩

/-- C10: `transposeToKey` (absent from the spec's interface table) composes the
other exports: it transposes the progression by the always-upward interval from
`fromKey` to `toKey` (`C` to `Bb` moves up 10, never down 2), re-spells in the
destination key's preferred table, and when either key fails to resolve it
transposes by 0 semitones while still re-spelling in that table. -/
theorem C10_transpose_to_key :
    (∀ (p : String) (fromKey toKey : String),
      transposeToKeyStr p fromKey toKey =
        transposeProgressionStr p (getInterval fromKey toKey)
          (getPreferredNotation toKey)) ∧
    (∀ (p : List String) (fromKey toKey : String),
      transposeToKeyList p fromKey toKey =
        transposeProgressionList p (getInterval fromKey toKey)
          (getPreferredNotation toKey)) ∧
    getInterval "C" "Bb" = 10 ∧
    (∀ fromKey toKey : String,
      0 ≤ getInterval fromKey toKey ∧ getInterval fromKey toKey < 12) ∧
    (∀ (p : String) (fromKey toKey : String),
      getNoteIndex fromKey = -1 ∨ getNoteIndex toKey = -1 →
      transposeToKeyStr p fromKey toKey =
        transposeProgressionStr p 0 (getPreferredNotation toKey)) := by
  refine ⟨?_, ?_, by decide, ?_, ?_⟩
  · intro p fromKey toKey
    rfl
  · intro p fromKey toKey
    rfl
  · intro fromKey toKey
    exact getInterval_range fromKey toKey
  · intro p fromKey toKey h
    unfold transposeToKeyStr
    rw [getInterval_invalid h]

/-- C10 (witness): an unresolvable source key still re-spells in the
destination key's preferred table at zero transposition. -/
theorem C10_transpose_to_key_witness :
    transposeToKeyStr "Am F C G" "??" "Bb" =
      transposeProgressionStr "Am F C G" 0 (getPreferredNotation "Bb") :=
  C10_transpose_to_key.2.2.2.2 "Am F C G" "??" "Bb" (Or.inl (by decide))
